import Mathlib

/-!
Verification of the hatch process-execution layer and command-encoding bridge.

Source files embedded here:

* `backend/src/hatchling/bridge/app.py` — the display facades
  (`Application`, `InvokedApplication`) and the command encoding bridge
  (`format_app_command`).
* `src/hatch/utils/platform.py` — the platform execution layer
  (`normalize_platform_name`, `Platform.format_for_subprocess`,
  `Platform.check_command`, `Platform.populate_default_popen_kwargs`,
  the cached `Platform.name` property).

Python values appearing as display-call arguments are modelled by the
inductive type `PyValue` (strings, integers, booleans, ordered sequences,
mappings).  Stateful behaviour (caching, process exit) is modelled by
explicit state passing and explicit outcome types.  External collaborators
that the repository calls but does not define (the `pickle` serializer, the
`shlex` splitter, the out-of-scope decoder/consumer) are modelled from the
spec's words and marked as such in their doc comments; platform services
such as `shutil.which` and `os.path.normpath` are universally quantified
parameters of the embedded functions.
-/

/-- Python values usable as arguments of display calls: strings, integers,
booleans, ordered sequences and key/value mappings. -/
inductive PyValue where
  | str (s : String)
  | int (n : Int)
  | bool (b : Bool)
  | list (xs : List PyValue)
  | dict (kvs : List (PyValue × PyValue))

/-- Little-endian base-255 digits terminated by the byte 255; every emitted
byte fits in one octet, which the hex rendering of the bridge relies on. -/
def natEnc (n : Nat) : List Nat :=
  if n = 0 then [255] else (n % 255) :: natEnc (n / 255)
decreasing_by exact Nat.div_lt_self (Nat.pos_of_ne_zero (by assumption)) (by omega)

/-- Inverse of `natEnc`: read digits until the terminator, return the number
and the unconsumed tail. -/
def natDec : List Nat → Option (Nat × List Nat)
  | [] => none
  | b :: rest =>
    if b = 255 then some (0, rest)
    else if b < 255 then (natDec rest).map (fun p => (b + 255 * p.1, p.2))
    else none

/-- Serialize a list of characters, each as the `natEnc` of its code point. -/
def serChars : List Char → List Nat
  | [] => []
  | c :: cs => natEnc c.toNat ++ serChars cs

/-- Read back `n` characters serialized by `serChars`. -/
def deserChars : Nat → List Nat → Option (List Char × List Nat)
  | 0, bs => some ([], bs)
  | n + 1, bs =>
    match natDec bs with
    | none => none
    | some (m, r1) =>
      match deserChars n r1 with
      | none => none
      | some (cs, r2) => some (Char.ofNat m :: cs, r2)

mutual

/-- Modelled from the spec: the stable, versioned binary object-serialization
format used by the bridge (the Python `pickle` module is an external
collaborator whose code is not part of this repository).  Each value is a
tag byte followed by its payload; sequences and mappings are length-prefixed
and serialize their elements in order, so the byte length is deterministic
given deterministic key ordering. -/
def ser : PyValue → List Nat
  | .bool false => [0]
  | .bool true => [1]
  | .int n =>
      if 0 ≤ n then 2 :: 0 :: natEnc n.toNat else 2 :: 1 :: natEnc (-n).toNat
  | .str s => 3 :: (natEnc s.data.length ++ serChars s.data)
  | .list xs => 4 :: (natEnc xs.length ++ serList xs)
  | .dict kvs => 5 :: (natEnc kvs.length ++ serKVs kvs)

/-- Serialize the elements of a sequence in order. -/
def serList : List PyValue → List Nat
  | [] => []
  | v :: vs => ser v ++ serList vs

/-- Serialize the key/value entries of a mapping in order. -/
def serKVs : List (PyValue × PyValue) → List Nat
  | [] => []
  | (k, v) :: kvs => ser k ++ ser v ++ serKVs kvs

end

mutual

/-- Fuel-indexed decoder for `ser`; the fuel bounds the nesting depth. -/
def deserV : Nat → List Nat → Option (PyValue × List Nat)
  | 0, _ => none
  | _ + 1, [] => none
  | _ + 1, 0 :: rest => some (.bool false, rest)
  | _ + 1, 1 :: rest => some (.bool true, rest)
  | _ + 1, 2 :: rest =>
    match rest with
    | 0 :: r1 => (natDec r1).map (fun p => (.int (Int.ofNat p.1), p.2))
    | 1 :: r1 => (natDec r1).map (fun p => (.int (-(p.1 : Int)), p.2))
    | _ => none
  | _ + 1, 3 :: rest =>
    match natDec rest with
    | some (n, r1) => (deserChars n r1).map (fun p => (.str (String.mk p.1), p.2))
    | none => none
  | fuel + 1, 4 :: rest =>
    match natDec rest with
    | some (n, r1) => (deserVs fuel n r1).map (fun p => (.list p.1, p.2))
    | none => none
  | fuel + 1, 5 :: rest =>
    match natDec rest with
    | some (n, r1) => (deserKVs fuel n r1).map (fun p => (.dict p.1, p.2))
    | none => none
  | _ + 1, _ :: _ => none
termination_by fuel bs => (fuel, 0)

/-- Decode `n` sequence elements, threading the unconsumed tail. -/
def deserVs : Nat → Nat → List Nat → Option (List PyValue × List Nat)
  | _, 0, bs => some ([], bs)
  | fuel, n + 1, bs =>
    match deserV fuel bs with
    | some (v, r1) => (deserVs fuel n r1).map (fun p => (v :: p.1, p.2))
    | none => none
termination_by fuel n bs => (fuel, n + 1)

/-- Decode `n` mapping entries, threading the unconsumed tail. -/
def deserKVs : Nat → Nat → List Nat → Option (List (PyValue × PyValue) × List Nat)
  | _, 0, bs => some ([], bs)
  | fuel, n + 1, bs =>
    match deserV fuel bs with
    | some (k, r1) =>
      match deserV fuel r1 with
      | some (v, r2) => (deserKVs fuel n r2).map (fun p => ((k, v) :: p.1, p.2))
      | none => none
    | none => none
termination_by fuel n bs => (fuel, n + 1)

end

mutual

/-- Nesting depth of a value, used to bound the decoder fuel. -/
def depthV : PyValue → Nat
  | .bool _ => 1
  | .int _ => 1
  | .str _ => 1
  | .list xs => depthL xs + 1
  | .dict kvs => depthKV kvs + 1

/-- Maximal nesting depth among the elements of a sequence. -/
def depthL : List PyValue → Nat
  | [] => 0
  | v :: vs => max (depthV v) (depthL vs)

/-- Maximal nesting depth among the entries of a mapping. -/
def depthKV : List (PyValue × PyValue) → Nat
  | [] => 0
  | (k, v) :: kvs => max (max (depthV k) (depthV v)) (depthKV kvs)

end

/-- The newline character. -/
def newlineChar : Char := Char.ofNat 10

/-- The colon character. -/
def colonChar : Char := Char.ofNat 58

/-- One lowercase hexadecimal digit, as rendered by the format `%02x`. -/
def hexDigitChar (n : Nat) : Char :=
  if n < 10 then Char.ofNat (48 + n) else Char.ofNat (87 + n)

/-- The two lowercase hexadecimal digits of one byte, as `%02x` renders it. -/
def byteHexChars (b : Nat) : List Char :=
  [hexDigitChar (b / 16), hexDigitChar (b % 16)]

/-- The concatenated two-digit hex renderings of a byte sequence, embedding
the expression joining the generator of `%02x` renderings in
`format_app_command`. -/
def hexChars (bs : List Nat) : List Char := (bs.map byteHexChars).flatten

/-- String form of `hexChars`. -/
def hexOfBytes (bs : List Nat) : String := String.mk (hexChars bs)

/-- Inverse of `hexVal`: numeric value of one lowercase hex digit. -/
def hexVal (c : Char) : Option Nat :=
  if 48 ≤ c.toNat ∧ c.toNat ≤ 57 then some (c.toNat - 48)
  else if 97 ≤ c.toNat ∧ c.toNat ≤ 102 then some (c.toNat - 87)
  else none

/-- Decode a string of hex-digit pairs back into the byte sequence. -/
def hexDecode : List Char → Option (List Nat)
  | [] => some []
  | [_] => none
  | c1 :: c2 :: cs =>
    match hexVal c1, hexVal c2, hexDecode cs with
    | some h, some l, some bs => some ((16 * h + l) :: bs)
    | _, _, _ => none

/-- Modelled from the spec: serialization of the `(method, args, kwargs)`
triple by the stable, versioned binary format (Python `pickle` protocol 4 is
the external collaborator); a two-byte versioned header is followed by the
serialized method name, positional tuple and keyword mapping. -/
def pickleDumps (method : String) (args : List PyValue)
    (kwargs : List (String × PyValue)) : List Nat :=
  128 :: 4 ::
    (ser (.str method) ++ ser (.list args) ++
      ser (.dict (kwargs.map (fun kv => (.str kv.1, kv.2)))))

/-- Embeds `format_app_command` of `hatchling/bridge/app.py`: the fixed
literal tag, a colon, and the concatenated `%02x` renderings of the bytes of
the serialized `(method, args, kwargs)` triple. -/
def format_app_command (method : String) (args : List PyValue)
    (kwargs : List (String × PyValue)) : String :=
  "__HATCH__:" ++ hexOfBytes (pickleDumps method args kwargs)

/-- Split a character list at the first colon, returning the text before it
and everything after it. -/
def splitOnFirstColon : List Char → Option (List Char × List Char)
  | [] => none
  | c :: cs =>
    if c = colonChar then some ([], cs)
    else (splitOnFirstColon cs).map (fun p => (c :: p.1, p.2))

/-- Recover string keys from a decoded keyword mapping. -/
def unStrKeys : List (PyValue × PyValue) → Option (List (String × PyValue))
  | [] => some []
  | (.str k, v) :: rest => (unStrKeys rest).map (fun l => (k, v) :: l)
  | _ => none

/-- Modelled from the spec: the out-of-scope decoder/consumer, which splits
the printed line on the first colon, checks the fixed tag, hex-decodes the
remainder and deserializes the `(method, args, kwargs)` triple. -/
def decode_app_command (line : String) :
    Option (String × List PyValue × List (String × PyValue)) :=
  match splitOnFirstColon line.data with
  | none => none
  | some (tag, payload) =>
    if tag = "__HATCH__".data then
      match hexDecode payload with
      | none => none
      | some bytes =>
        match bytes with
        | b0 :: b1 :: body =>
          if b0 = 128 ∧ b1 = 4 then
            match deserV (body.length + 1) body with
            | some (.str m, r1) =>
              match deserV (body.length + 1) r1 with
              | some (.list args, r2) =>
                match deserV (body.length + 1) r2 with
                | some (.dict kvs, []) => (unStrKeys kvs).map (fun ks => (m, args, ks))
                | _ => none
              | _ => none
            | _ => none
          else none
        | _ => none
    else none

/-- Keyword-argument lookup, embedding Python `kwargs.get`. -/
def lookupKw (kwargs : List (String × PyValue)) (k : String) : Option PyValue :=
  (kwargs.find? (fun kv => kv.1 == k)).map (fun kv => kv.2)

namespace InvokedApplication

/-- Embeds `InvokedApplication.abort`: sends the encoded `abort` command and
then exits the hosting process with `kwargs.get('code', 1)`.  The result is
the emitted line paired with the exit code. -/
def abort (args : List PyValue) (kwargs : List (String × PyValue)) :
    String × PyValue :=
  (format_app_command "abort" args kwargs, (lookupKw kwargs "code").getD (.int 1))

end InvokedApplication

namespace Application

/-- Embeds `Application.__init__`: the verbosity is the increasing counter
(`HATCH_VERBOSE`) minus the decreasing counter (`HATCH_QUIET`). -/
def verbosity (verbose quiet : Int) : Int := verbose - quiet

/-- Embeds `Application.display`: prints unconditionally. -/
def display (v : Int) (message : String) : Option String :=
  some message

/-- Embeds `Application.display_info`. -/
def display_info (v : Int) (message : String) : Option String :=
  if v ≥ 0 then some message else none

/-- Embeds `Application.display_waiting`. -/
def display_waiting (v : Int) (message : String) : Option String :=
  if v ≥ 0 then some message else none

/-- Embeds `Application.display_success`. -/
def display_success (v : Int) (message : String) : Option String :=
  if v ≥ 0 then some message else none

/-- Embeds `Application.display_warning`. -/
def display_warning (v : Int) (message : String) : Option String :=
  if v ≥ -1 then some message else none

/-- Embeds `Application.display_error`. -/
def display_error (v : Int) (message : String) : Option String :=
  if v ≥ -2 then some message else none

/-- The validation message raised for an out-of-range debug level. -/
def debugLevelError : String :=
  "Debug output can only have verbosity levels between 1 and 3 (inclusive)"

/-- Embeds `Application.display_debug`: a level outside 1..3 raises a
`ValueError`; otherwise the message prints when the verbosity reaches the
level. -/
def display_debug (v : Int) (message : String) (level : Int) :
    Except String (Option String) :=
  if ¬ (1 ≤ level ∧ level ≤ 3) then .error debugLevelError
  else if v ≥ level then .ok (some message) else .ok none

/-- Embeds `Application.display_mini_header`: wraps the message in brackets. -/
def display_mini_header (v : Int) (message : String) : Option String :=
  if v ≥ 0 then some ("[" ++ message ++ "]") else none

/-- Embeds `Application.abort`: prints the message when it is non-empty and
the verbosity is at least -2, then exits with the given code. -/
def abort (v : Int) (message : String) (code : Int) : Option String × Int :=
  (if message ≠ "" ∧ v ≥ -2 then some message else none, code)

end Application

/-- ASCII lowering of a string, embedding Python `str.lower` on the ASCII
operating-system names at issue. -/
def pyLower (s : String) : String := String.mk (s.data.map Char.toLower)

/-- Embeds `normalize_platform_name`: lowercase the queried name and map
`darwin` to `macos`. -/
def normalize_platform_name (platform_name : String) : String :=
  let lowered := pyLower platform_name
  if lowered = "darwin" then "macos" else lowered

/-- A command, either a single string or an argument list. -/
inductive Command where
  | str (s : String)
  | args (xs : List String)
deriving DecidableEq

/-- A completed child process, embedding `subprocess.CompletedProcess`. -/
structure CompletedProcess where
  returncode : Int
  stdout : String
  stderr : String
deriving DecidableEq

/-- Outcome of a checked execution: either the hosting process terminated
with a code, or the completed process is returned to the caller. -/
inductive ExecOutcome where
  | exited (code : Int)
  | completed (p : CompletedProcess)
deriving DecidableEq

/-- Modelled from the spec: POSIX shell-lexing split (the `shlex` module is
an external collaborator outside the repository).  Whitespace separates
tokens; single and double quotes group; a backslash escapes the next
character. -/
def shlexGo : List Char → Option Char → Bool → List Char → List String → List String
  | [], _, inTok, cur, acc => if inTok then acc ++ [String.mk cur.reverse] else acc
  | c :: cs, some q, _, cur, acc =>
    if c = q then shlexGo cs none true cur acc
    else shlexGo cs (some q) true (c :: cur) acc
  | c :: cs, none, inTok, cur, acc =>
    if c = Char.ofNat 32 ∨ c = Char.ofNat 9 ∨ c = Char.ofNat 10 then
      if inTok then shlexGo cs none false [] (acc ++ [String.mk cur.reverse])
      else shlexGo cs none false [] acc
    else if c = Char.ofNat 39 ∨ c = Char.ofNat 34 then shlexGo cs (some c) true cur acc
    else if c = Char.ofNat 92 then
      match cs with
      | [] => shlexGo [] none true cur acc
      | d :: cs2 => shlexGo cs2 none true (d :: cur) acc
    else shlexGo cs none true (c :: cur) acc

/-- Split a command string into an argument list by shell-lexing rules. -/
def shlex_split (s : String) : List String := shlexGo s.data none false [] []

/-- Embeds Python `str.startswith` on a single marker. -/
def startswith (s pre : String) : Bool := pre.data.isPrefixOf s.data

/-- Splitter for `str.split(sep)` with a one-character separator. -/
def pySplitAux (sep : Char) : List Char → List Char → List String
  | [], cur => [String.mk cur.reverse]
  | c :: cs, cur =>
    if c = sep then String.mk cur.reverse :: pySplitAux sep cs []
    else pySplitAux sep cs (c :: cur)

/-- Embeds Python `str.split` with a one-character separator, as used with
the path separator `:`. -/
def pySplit (s : String) (sep : Char) : List String := pySplitAux sep s.data []

namespace Platform

/-- Embeds `Platform.format_for_subprocess`; the platform name selects the
branch, and executable resolution (`shutil.which`) is the parameter `which`.
On Windows without a shell, the head of an argument list resolves against
the search path (`command[0]` of an empty list raises an `IndexError`); on
other platforms without a shell, a string command is shell-lexed; with a
shell the command is returned unchanged. -/
def format_for_subprocess (name : String) (which : String → Option String)
    (command : Command) (shell : Bool) : Except String Command :=
  if name = "windows" then
    if ¬ shell then
      match command with
      | .str _ => .ok command
      | .args [] => .error "IndexError"
      | .args (executable :: rest) => .ok (.args (((which executable).getD executable) :: rest))
    else .ok command
  else
    if ¬ shell then
      match command with
      | .str s => .ok (.args (shlex_split s))
      | .args _ => .ok command
    else .ok command

/-- Embeds `Platform.exit_with_code` (`sys.exit`). -/
def exit_with_code (code : Int) : ExecOutcome := .exited code

/-- Embeds `Platform.check_command` given the completed run: a non-zero
(`truthy`) exit code terminates the hosting process with that code,
otherwise the completed process is returned. -/
def check_command (process : CompletedProcess) : ExecOutcome :=
  if process.returncode ≠ 0 then exit_with_code process.returncode
  else .completed process

/-- Embeds the caching `Platform.name` property: a cached value is returned
as is; otherwise the name is computed from the operating-system query and
stored. -/
def name_access : Option String → String → String × Option String
  | some n, _ => (n, some n)
  | none, osName =>
    let n := normalize_platform_name osName
    (n, some n)

/-- Environment lookup with a default, embedding `os.environ.get`. -/
def envGet (environ : List (String × String)) (k d : String) : String :=
  ((environ.find? (fun kv => kv.1 == k)).map (fun kv => kv.2)).getD d

/-- Whether some environment variable name carries a dynamic-linker-override
marker, embedding `env_var.startswith(('DYLD_', 'LD_'))` over `os.environ`. -/
def hasLinkerOverrideVar (environ : List (String × String)) : Bool :=
  environ.any (fun kv => startswith kv.1 "DYLD_" || startswith kv.1 "LD_")

/-- Embeds the search-path filter loop of `populate_default_popen_kwargs`:
keep a path when its normalization does not start with a protected
directory, or when it starts with `/usr/local`. -/
def unprotected_paths (normpath : String → String) : List String → List String
  | [] => []
  | path :: rest =>
    let np := normpath path
    if ¬ (startswith np "/System" ∨ startswith np "/usr" ∨ startswith np "/bin"
        ∨ startswith np "/sbin" ∨ startswith np "/var") then
      path :: unprotected_paths normpath rest
    else if startswith np "/usr/local" then
      path :: unprotected_paths normpath rest
    else
      unprotected_paths normpath rest

/-- First shell executable found on the filtered search path, embedding the
`for exe_name in ('sh', 'bash', 'zsh', 'fish')` loop; `whichIn` embeds
`shutil.which(exe_name, path=search_path)`. -/
def firstShellFound (whichIn : String → String → Option String)
    (searchPath : String) : List String → Option String
  | [] => none
  | exe :: rest =>
    match whichIn exe searchPath with
    | some e => some e
    | none => firstShellFound whichIn searchPath rest

/-- Embeds `Platform.populate_default_popen_kwargs`.  Keyword arguments are
an association list; `macos` and `shell` are the guarding flags, `environ`
the process environment, `defpath` embeds `os.defpath`, `normpath` embeds
`os.path.normpath` and `whichIn` embeds `shutil.which` with a search path.
The path separator on macOS is `:`. -/
def populate_default_popen_kwargs (kwargs : List (String × String))
    (macos shell : Bool) (environ : List (String × String)) (defpath : String)
    (normpath : String → String) (whichIn : String → String → Option String) :
    List (String × String) :=
  if (kwargs.find? (fun kv => kv.1 == "executable")).isNone && macos && shell
      && hasLinkerOverrideVar environ then
    let default_paths := pySplit (envGet environ "PATH" defpath) colonChar
    let search_path := String.intercalate ":" (unprotected_paths normpath default_paths)
    match firstShellFound whichIn search_path ["sh", "bash", "zsh", "fish"] with
    | some executable => kwargs ++ [("executable", executable)]
    | none => kwargs
  else kwargs

end Platform

/-! Helper lemmas. -/

theorem natDec_natEnc (n : Nat) (rest : List Nat) :
    natDec (natEnc n ++ rest) = some (n, rest) := by
  induction n using Nat.strong_induction_on with
  | _ n ih =>
    by_cases h : n = 0
    · subst h; simp [natEnc, natDec]
    · rw [natEnc]
      simp only [h, if_false, List.cons_append, natDec]
      have h1 : n % 255 < 255 := Nat.mod_lt _ (by omega)
      have h2 : ¬ (n % 255 = 255) := by omega
      simp only [h2, if_false, h1, if_true]
      rw [ih (n / 255) (Nat.div_lt_self (Nat.pos_of_ne_zero h) (by omega))]
      simp [Nat.mod_add_div]

theorem natEnc_lt (n : Nat) : ∀ b ∈ natEnc n, b < 256 := by
  induction n using Nat.strong_induction_on with
  | _ n ih =>
    by_cases h : n = 0
    · subst h; simp [natEnc]
    · rw [natEnc]
      simp only [h, if_false]
      intro b hb
      rcases List.mem_cons.mp hb with h1 | h2
      · subst h1; have := Nat.mod_lt n (show 0 < 255 by omega); omega
      · exact ih (n / 255) (Nat.div_lt_self (Nat.pos_of_ne_zero h) (by omega)) b h2

theorem natEnc_ne_nil (n : Nat) : natEnc n ≠ [] := by
  rw [natEnc]
  by_cases h : n = 0 <;> simp [h]

theorem deserChars_serChars (cs : List Char) (rest : List Nat) :
    deserChars cs.length (serChars cs ++ rest) = some (cs, rest) := by
  induction cs with
  | nil => simp [serChars, deserChars]
  | cons c cs ih =>
    simp only [serChars, List.length_cons, deserChars, List.append_assoc,
      natDec_natEnc, ih, Char.ofNat_toNat]

theorem serChars_lt (cs : List Char) : ∀ b ∈ serChars cs, b < 256 := by
  induction cs with
  | nil => simp [serChars]
  | cons c cs ih =>
    intro b hb
    rcases List.mem_append.mp hb with h | h
    · exact natEnc_lt _ b h
    · exact ih b h

theorem depthV_pos (v : PyValue) : 1 ≤ depthV v := by
  cases v <;> simp [depthV]

theorem mem_depthL {x : PyValue} {xs : List PyValue} (h : x ∈ xs) :
    depthV x ≤ depthL xs := by
  induction xs with
  | nil => cases h
  | cons v vs ih =>
    rcases List.mem_cons.mp h with h1 | h2
    · subst h1; simp [depthL]
    · calc depthV x ≤ depthL vs := ih h2
        _ ≤ depthL (v :: vs) := by simp [depthL]

theorem mem_depthKV_k {k v : PyValue} {kvs : List (PyValue × PyValue)}
    (h : (k, v) ∈ kvs) : depthV k ≤ depthKV kvs := by
  induction kvs with
  | nil => cases h
  | cons p ps ih =>
    obtain ⟨pk, pv⟩ := p
    rcases List.mem_cons.mp h with h1 | h2
    · rw [Prod.mk.injEq] at h1
      rw [h1.1] at *
      simp [depthKV, le_max_iff, le_max_left]
    · calc depthV k ≤ depthKV ps := ih h2
        _ ≤ depthKV ((pk, pv) :: ps) := by simp [depthKV]

theorem mem_depthKV_v {k v : PyValue} {kvs : List (PyValue × PyValue)}
    (h : (k, v) ∈ kvs) : depthV v ≤ depthKV kvs := by
  induction kvs with
  | nil => cases h
  | cons p ps ih =>
    obtain ⟨pk, pv⟩ := p
    rcases List.mem_cons.mp h with h1 | h2
    · rw [Prod.mk.injEq] at h1
      rw [h1.2] at *
      simp [depthKV, le_max_iff, le_max_left, le_max_right]
    · calc depthV v ≤ depthKV ps := ih h2
        _ ≤ depthKV ((pk, pv) :: ps) := by simp [depthKV]

theorem stringMk_data (s : String) : String.mk s.data = s := by
  cases s
  rfl

theorem deserVs_serList (fuel : Nat)
    (H : ∀ v rest, depthV v ≤ fuel → deserV fuel (ser v ++ rest) = some (v, rest)) :
    ∀ (xs : List PyValue) (rest : List Nat), depthL xs ≤ fuel →
      deserVs fuel xs.length (serList xs ++ rest) = some (xs, rest) := by
  intro xs
  induction xs with
  | nil => intro rest h; simp [serList, deserVs]
  | cons v vs ih =>
    intro rest h
    rw [depthL] at h
    have hv : depthV v ≤ fuel := le_trans (le_max_left _ _) h
    have hvs : depthL vs ≤ fuel := le_trans (le_max_right _ _) h
    simp only [serList, List.length_cons, List.append_assoc]
    rw [deserVs, H v _ hv]
    dsimp only
    rw [ih _ hvs]
    rfl

theorem deserKVs_serKVs (fuel : Nat)
    (H : ∀ v rest, depthV v ≤ fuel → deserV fuel (ser v ++ rest) = some (v, rest)) :
    ∀ (kvs : List (PyValue × PyValue)) (rest : List Nat), depthKV kvs ≤ fuel →
      deserKVs fuel kvs.length (serKVs kvs ++ rest) = some (kvs, rest) := by
  intro kvs
  induction kvs with
  | nil => intro rest h; simp [serKVs, deserKVs]
  | cons p ps ih =>
    obtain ⟨k, v⟩ := p
    intro rest h
    rw [depthKV] at h
    have hk : depthV k ≤ fuel := le_trans (le_trans (le_max_left _ _) (le_max_left _ _)) h
    have hv : depthV v ≤ fuel := le_trans (le_trans (le_max_right _ _) (le_max_left _ _)) h
    have hps : depthKV ps ≤ fuel := le_trans (le_max_right _ _) h
    simp only [serKVs, List.length_cons, List.append_assoc]
    rw [deserKVs, H k _ hk]
    dsimp only
    rw [H v _ hv]
    dsimp only
    rw [ih _ hps]
    rfl

theorem deserV_ser : ∀ (fuel : Nat) (v : PyValue) (rest : List Nat),
    depthV v ≤ fuel → deserV fuel (ser v ++ rest) = some (v, rest) := by
  intro fuel
  induction fuel with
  | zero =>
    intro v rest h
    have := depthV_pos v
    omega
  | succ f ih =>
    intro v rest h
    cases v with
    | bool b => cases b <;> simp [ser, deserV]
    | int n =>
      by_cases hn : 0 ≤ n
      · simp only [ser, hn, if_true, List.cons_append]
        rw [deserV]
        rw [natDec_natEnc]
        simp [Int.toNat_of_nonneg hn]
      · simp only [ser, hn, if_false, List.cons_append]
        rw [deserV]
        rw [natDec_natEnc]
        have h2 : ((-n).toNat : Int) = -n := Int.toNat_of_nonneg (by omega)
        simp [h2]
    | str s =>
      simp only [ser, List.cons_append, List.append_assoc]
      rw [deserV]
      rw [natDec_natEnc]
      dsimp only
      rw [deserChars_serChars]
      simp [stringMk_data]
    | list xs =>
      have hxs : depthL xs ≤ f := by
        rw [depthV] at h
        omega
      simp only [ser, List.cons_append, List.append_assoc]
      rw [deserV]
      rw [natDec_natEnc]
      dsimp only
      rw [deserVs_serList f ih xs rest hxs]
      rfl
    | dict kvs =>
      have hkvs : depthKV kvs ≤ f := by
        rw [depthV] at h
        omega
      simp only [ser, List.cons_append, List.append_assoc]
      rw [deserV]
      rw [natDec_natEnc]
      dsimp only
      rw [deserKVs_serKVs f ih kvs rest hkvs]
      rfl

theorem serList_mem {b : Nat} {xs : List PyValue} (h : b ∈ serList xs) :
    ∃ x ∈ xs, b ∈ ser x := by
  induction xs with
  | nil => simp [serList] at h
  | cons v vs ih =>
    rw [serList] at h
    rcases List.mem_append.mp h with h1 | h2
    · exact ⟨v, List.mem_cons_self _ _, h1⟩
    · obtain ⟨x, hx, hb⟩ := ih h2
      exact ⟨x, List.mem_cons_of_mem _ hx, hb⟩

theorem serKVs_mem {b : Nat} {kvs : List (PyValue × PyValue)} (h : b ∈ serKVs kvs) :
    ∃ p ∈ kvs, b ∈ ser p.1 ∨ b ∈ ser p.2 := by
  induction kvs with
  | nil => simp [serKVs] at h
  | cons p ps ih =>
    obtain ⟨k, v⟩ := p
    rw [serKVs] at h
    rcases List.mem_append.mp h with h1 | h2
    · rcases List.mem_append.mp h1 with ha | hb
      · exact ⟨(k, v), List.mem_cons_self _ _, Or.inl ha⟩
      · exact ⟨(k, v), List.mem_cons_self _ _, Or.inr hb⟩
    · obtain ⟨q, hq, hb⟩ := ih h2
      exact ⟨q, List.mem_cons_of_mem _ hq, hb⟩

theorem ser_lt_aux : ∀ (n : Nat) (v : PyValue), depthV v ≤ n → ∀ b ∈ ser v, b < 256 := by
  intro n
  induction n with
  | zero =>
    intro v h
    have := depthV_pos v
    omega
  | succ m ih =>
    intro v h b hb
    cases v with
    | bool x => cases x <;> simp [ser] at hb <;> omega
    | int k =>
      by_cases hk : 0 ≤ k <;> simp only [ser, hk, if_true, if_false] at hb <;>
        rcases List.mem_cons.mp hb with h1 | h2
      · omega
      · rcases List.mem_cons.mp h2 with h3 | h4
        · omega
        · exact natEnc_lt _ b h4
      · omega
      · rcases List.mem_cons.mp h2 with h3 | h4
        · omega
        · exact natEnc_lt _ b h4
    | str s =>
      rw [ser] at hb
      rcases List.mem_cons.mp hb with h1 | h2
      · omega
      · rcases List.mem_append.mp h2 with h3 | h4
        · exact natEnc_lt _ b h3
        · exact serChars_lt _ b h4
    | list xs =>
      rw [ser] at hb
      rw [depthV] at h
      rcases List.mem_cons.mp hb with h1 | h2
      · omega
      · rcases List.mem_append.mp h2 with h3 | h4
        · exact natEnc_lt _ b h3
        · obtain ⟨x, hx, hbx⟩ := serList_mem h4
          exact ih x (le_trans (mem_depthL hx) (by omega)) b hbx
    | dict kvs =>
      rw [ser] at hb
      rw [depthV] at h
      rcases List.mem_cons.mp hb with h1 | h2
      · omega
      · rcases List.mem_append.mp h2 with h3 | h4
        · exact natEnc_lt _ b h3
        · obtain ⟨⟨pk, pv⟩, hp, hbp⟩ := serKVs_mem h4
          rcases hbp with hk | hv
          · exact ih pk (le_trans (mem_depthKV_k hp) (by omega)) b hk
          · exact ih pv (le_trans (mem_depthKV_v hp) (by omega)) b hv

theorem ser_lt (v : PyValue) : ∀ b ∈ ser v, b < 256 :=
  ser_lt_aux (depthV v) v le_rfl

theorem depthL_le_serList (xs : List PyValue)
    (H : ∀ x ∈ xs, depthV x ≤ (ser x).length) :
    depthL xs ≤ (serList xs).length := by
  induction xs with
  | nil => simp [depthL, serList]
  | cons v vs ih =>
    rw [depthL, serList, List.length_append]
    have h1 : depthV v ≤ (ser v).length := H v (List.mem_cons_self _ _)
    have h2 : depthL vs ≤ (serList vs).length :=
      ih (fun x hx => H x (List.mem_cons_of_mem _ hx))
    omega

theorem depthKV_le_serKVs (kvs : List (PyValue × PyValue))
    (H : ∀ p ∈ kvs, depthV p.1 ≤ (ser p.1).length ∧ depthV p.2 ≤ (ser p.2).length) :
    depthKV kvs ≤ (serKVs kvs).length := by
  induction kvs with
  | nil => simp [depthKV, serKVs]
  | cons p ps ih =>
    obtain ⟨k, v⟩ := p
    rw [depthKV, serKVs, List.length_append, List.length_append]
    have h1 := H (k, v) (List.mem_cons_self _ _)
    have h2 : depthKV ps ≤ (serKVs ps).length :=
      ih (fun q hq => H q (List.mem_cons_of_mem _ hq))
    simp only at h1
    omega

theorem depthV_le_serLen_aux : ∀ (n : Nat) (v : PyValue), depthV v ≤ n →
    depthV v ≤ (ser v).length := by
  intro n
  induction n with
  | zero =>
    intro v h
    have := depthV_pos v
    omega
  | succ m ih =>
    intro v h
    cases v with
    | bool x => cases x <;> simp [ser, depthV]
    | int k =>
      by_cases hk : 0 ≤ k <;> simp [ser, depthV, hk]
    | str s => simp [ser, depthV]
    | list xs =>
      rw [depthV] at h ⊢
      rw [ser, List.length_cons, List.length_append]
      have hL : depthL xs ≤ (serList xs).length := by
        apply depthL_le_serList
        intro x hx
        exact ih x (le_trans (mem_depthL hx) (by omega))
      omega
    | dict kvs =>
      rw [depthV] at h ⊢
      rw [ser, List.length_cons, List.length_append]
      have hK : depthKV kvs ≤ (serKVs kvs).length := by
        apply depthKV_le_serKVs
        intro p hp
        obtain ⟨pk, pv⟩ := p
        constructor
        · exact ih pk (le_trans (mem_depthKV_k hp) (by omega))
        · exact ih pv (le_trans (mem_depthKV_v hp) (by omega))
      omega

theorem depthV_le_serLen (v : PyValue) : depthV v ≤ (ser v).length :=
  depthV_le_serLen_aux (depthV v) v le_rfl

/-- The lowercase hexadecimal digit characters. -/
def lowerHexDigits : List Char := "0123456789abcdef".data

theorem hexVal_hexDigitChar : ∀ d : Nat, d < 16 → hexVal (hexDigitChar d) = some d := by
  decide

theorem hexDigitChar_mem : ∀ d : Nat, d < 16 → hexDigitChar d ∈ lowerHexDigits := by
  decide

theorem hexDecode_hexChars (bs : List Nat) (h : ∀ b ∈ bs, b < 256) :
    hexDecode (hexChars bs) = some bs := by
  induction bs with
  | nil => simp [hexChars, hexDecode]
  | cons b bs ih =>
    have hb : b < 256 := h b (List.mem_cons_self _ _)
    have h16 : b / 16 < 16 := by omega
    have hm : b % 16 < 16 := Nat.mod_lt _ (by omega)
    have : hexChars (b :: bs) = hexDigitChar (b / 16) :: hexDigitChar (b % 16) :: hexChars bs := by
      simp [hexChars, byteHexChars]
    rw [this, hexDecode]
    rw [hexVal_hexDigitChar _ h16, hexVal_hexDigitChar _ hm,
      ih (fun x hx => h x (List.mem_cons_of_mem _ hx))]
    dsimp only
    have : 16 * (b / 16) + b % 16 = b := by omega
    rw [this]

theorem hexChars_subset (bs : List Nat) (h : ∀ b ∈ bs, b < 256) :
    ∀ c ∈ hexChars bs, c ∈ lowerHexDigits := by
  induction bs with
  | nil => simp [hexChars]
  | cons b bs ih =>
    have hb : b < 256 := h b (List.mem_cons_self _ _)
    intro c hc
    have : hexChars (b :: bs) = hexDigitChar (b / 16) :: hexDigitChar (b % 16) :: hexChars bs := by
      simp [hexChars, byteHexChars]
    rw [this] at hc
    rcases List.mem_cons.mp hc with h1 | h2
    · subst h1; exact hexDigitChar_mem _ (by omega)
    · rcases List.mem_cons.mp h2 with h3 | h4
      · subst h3; exact hexDigitChar_mem _ (Nat.mod_lt _ (by omega))
      · exact ih (fun x hx => h x (List.mem_cons_of_mem _ hx)) c h4

theorem hexChars_length (bs : List Nat) : (hexChars bs).length = 2 * bs.length := by
  induction bs with
  | nil => simp [hexChars]
  | cons b bs ih =>
    have : hexChars (b :: bs) = hexDigitChar (b / 16) :: hexDigitChar (b % 16) :: hexChars bs := by
      simp [hexChars, byteHexChars]
    rw [this]
    simp only [List.length_cons, ih]
    omega

theorem splitOnFirstColon_append (t p : List Char) (h : colonChar ∉ t) :
    splitOnFirstColon (t ++ colonChar :: p) = some (t, p) := by
  induction t with
  | nil => simp [splitOnFirstColon]
  | cons c cs ih =>
    have hc : ¬ (c = colonChar) := by
      intro e
      exact h (e ▸ List.mem_cons_self _ _)
    simp only [List.cons_append, splitOnFirstColon, hc, if_false, List.append_eq]
    rw [ih (fun hm => h (List.mem_cons_of_mem _ hm))]
    rfl

theorem unStrKeys_map (kwargs : List (String × PyValue)) :
    unStrKeys (kwargs.map (fun kv => (.str kv.1, kv.2))) = some kwargs := by
  induction kwargs with
  | nil => simp [unStrKeys]
  | cons kv rest ih =>
    obtain ⟨k, v⟩ := kv
    simp only [List.map_cons, unStrKeys, ih]
    rfl

theorem pickleDumps_lt (m : String) (args : List PyValue)
    (kwargs : List (String × PyValue)) :
    ∀ b ∈ pickleDumps m args kwargs, b < 256 := by
  intro b hb
  rw [pickleDumps] at hb
  rcases List.mem_cons.mp hb with h1 | h2
  · omega
  rcases List.mem_cons.mp h2 with h3 | h4
  · omega
  rcases List.mem_append.mp h4 with h5 | h6
  · rcases List.mem_append.mp h5 with h7 | h8
    · exact ser_lt _ b h7
    · exact ser_lt _ b h8
  · exact ser_lt _ b h6

theorem format_app_command_data (m : String) (args : List PyValue)
    (kwargs : List (String × PyValue)) :
    (format_app_command m args kwargs).data
      = "__HATCH__".data ++ colonChar :: hexChars (pickleDumps m args kwargs) := by
  rw [format_app_command, String.data_append]
  rfl

/-! Claim theorems. -/

/-- C1: for every method name, positional arguments and keyword arguments,
the encoded command line is exactly the fixed literal tag `__HATCH__`
followed by a colon followed by the two-lowercase-hex-digit rendering of
each byte of the serialized `(method, args, kwargs)` triple, with no
trailing content after the hex payload, and the line contains no newline
character. -/
theorem c1_encoded_line_shape (m : String) (args : List PyValue)
    (kwargs : List (String × PyValue)) :
    format_app_command m args kwargs
        = "__HATCH__:" ++ hexOfBytes (pickleDumps m args kwargs)
      ∧ (∀ c ∈ hexChars (pickleDumps m args kwargs), c ∈ lowerHexDigits)
      ∧ (hexChars (pickleDumps m args kwargs)).length
          = 2 * (pickleDumps m args kwargs).length
      ∧ newlineChar ∉ (format_app_command m args kwargs).data := by
  refine ⟨rfl, hexChars_subset _ (pickleDumps_lt m args kwargs), hexChars_length _, ?_⟩
  intro hmem
  rw [format_app_command_data] at hmem
  rcases List.mem_append.mp hmem with h | h
  · revert h
    decide
  · rcases List.mem_cons.mp h with h1 | h2
    · exact absurd h1 (by decide)
    · have hin := hexChars_subset _ (pickleDumps_lt m args kwargs) _ h2
      revert hin
      decide

/-- C8: encoding a command token `(method, args, kwargs)` to a line and then
decoding it (split on the first colon, hex-decode the remainder,
deserialize) yields a triple equal to the original. -/
theorem c8_encode_decode_roundtrip (m : String) (args : List PyValue)
    (kwargs : List (String × PyValue)) :
    decode_app_command (format_app_command m args kwargs)
      = some (m, args, kwargs) := by
  have hbody : pickleDumps m args kwargs
      = 128 :: 4 :: (ser (.str m) ++ (ser (.list args)
          ++ ser (.dict (kwargs.map (fun kv => (.str kv.1, kv.2)))))) := by
    rw [pickleDumps, List.append_assoc]
  rw [decode_app_command, format_app_command_data,
    splitOnFirstColon_append _ _ (by decide)]
  dsimp only
  rw [if_pos rfl, hexDecode_hexChars _ (pickleDumps_lt m args kwargs), hbody]
  dsimp only
  rw [if_pos ⟨rfl, rfl⟩]
  have hlen : (ser (.str m) ++ (ser (.list args)
      ++ ser (.dict (kwargs.map (fun kv => (.str kv.1, kv.2)))))).length
      = (ser (.str m)).length + ((ser (.list args)).length
        + (ser (.dict (kwargs.map (fun kv => (.str kv.1, kv.2))))).length) := by
    rw [List.length_append, List.length_append]
  rw [deserV_ser _ _ _ (by rw [hlen, depthV]; omega)]
  dsimp only
  rw [deserV_ser _ _ _ ?h2]
  case h2 =>
    rw [hlen]
    have := depthV_le_serLen (.list args)
    omega
  dsimp only
  rw [← List.append_nil
    (ser (.dict (kwargs.map (fun kv => (PyValue.str kv.1, kv.2)))))]
  rw [deserV_ser _ _ _ ?h3]
  case h3 =>
    simp only [List.append_nil, List.length_append]
    have := depthV_le_serLen (.dict (kwargs.map (fun kv => (PyValue.str kv.1, kv.2))))
    omega
  dsimp only
  rw [unStrKeys_map]
  rfl

theorem unprotected_paths_filter (normpath : String → String) (ps : List String) :
    Platform.unprotected_paths normpath ps = ps.filter (fun p =>
      decide (¬ (startswith (normpath p) "/System" ∨ startswith (normpath p) "/usr"
          ∨ startswith (normpath p) "/bin" ∨ startswith (normpath p) "/sbin"
          ∨ startswith (normpath p) "/var")
        ∨ startswith (normpath p) "/usr/local")) := by
  induction ps with
  | nil => rfl
  | cons p rest ih =>
    by_cases hProt : (startswith (normpath p) "/System" ∨ startswith (normpath p) "/usr"
        ∨ startswith (normpath p) "/bin" ∨ startswith (normpath p) "/sbin"
        ∨ startswith (normpath p) "/var")
    · by_cases hLoc : startswith (normpath p) "/usr/local" = true
      · rw [Platform.unprotected_paths]
        simp only [hProt, not_true, if_false, hLoc, if_true, List.filter_cons, ih,
          decide_eq_true_eq]
        simp [hProt, hLoc]
      · rw [Platform.unprotected_paths]
        simp only [hProt, not_true, if_false, hLoc, if_true, List.filter_cons, ih,
          decide_eq_true_eq]
        simp [hProt, hLoc]
    · rw [Platform.unprotected_paths]
      simp only [hProt, not_false_iff, if_true, List.filter_cons, ih, decide_eq_true_eq]
      simp [hProt]

/-- C2: for every verbosity level (the increasing counter minus the
decreasing counter) and every message kind, the local facade prints iff the
level meets the documented threshold: info, waiting, success and the
bracket-wrapping mini header need at least 0, warning at least -1, error
and the abort message at least -2, debug at least its level (for levels 1
to 3), and plain display prints unconditionally. -/
theorem c2_local_verbosity_thresholds (verbose quiet : Int) (v : Int)
    (hv : v = Application.verbosity verbose quiet) (m : String) (level code : Int) :
    Application.display v m = some m
      ∧ (Application.display_info v m = some m ↔ v ≥ 0)
      ∧ (Application.display_waiting v m = some m ↔ v ≥ 0)
      ∧ (Application.display_success v m = some m ↔ v ≥ 0)
      ∧ (Application.display_mini_header v m = some ("[" ++ m ++ "]") ↔ v ≥ 0)
      ∧ (Application.display_warning v m = some m ↔ v ≥ -1)
      ∧ (Application.display_error v m = some m ↔ v ≥ -2)
      ∧ (1 ≤ level ∧ level ≤ 3 →
          (Application.display_debug v m level = .ok (some m) ↔ v ≥ level))
      ∧ (m ≠ "" → ((Application.abort v m code).1 = some m ↔ v ≥ -2)) := by
  refine ⟨rfl, ?_, ?_, ?_, ?_, ?_, ?_, ?_, ?_⟩
  · by_cases h : v ≥ 0 <;> simp [Application.display_info, h]
  · by_cases h : v ≥ 0 <;> simp [Application.display_waiting, h]
  · by_cases h : v ≥ 0 <;> simp [Application.display_success, h]
  · by_cases h : v ≥ 0 <;> simp [Application.display_mini_header, h]
  · by_cases h : v ≥ -1 <;> simp [Application.display_warning, h]
  · by_cases h : v ≥ -2 <;> simp [Application.display_error, h]
  · intro hrange
    by_cases h : v ≥ level <;>
      simp [Application.display_debug, hrange.1, hrange.2, h]
  · intro hm
    by_cases h : v ≥ -2 <;> simp [Application.abort, h, hm]

/-- Witness for C2 at verbosity 1 with message `msg`, debug level 1 and
abort code 9. -/
theorem c2_witness :
    Application.display_debug 1 "msg" 1 = .ok (some "msg")
      ∧ (Application.abort 1 "msg" 9).1 = some "msg" := by
  have h := c2_local_verbosity_thresholds 1 0 1 rfl "msg" 1 9
  exact ⟨(h.2.2.2.2.2.2.2.1 (by decide)).mpr (by decide),
         (h.2.2.2.2.2.2.2.2 (by decide)).mpr (by decide)⟩

/-- C3: a checked command with a non-zero exit code terminates the hosting
process with that same exit code; a zero exit code returns the completed
process to the caller. -/
theorem c3_check_command_failfast (p : CompletedProcess) :
    (p.returncode ≠ 0 → Platform.check_command p = ExecOutcome.exited p.returncode)
      ∧ (p.returncode = 0 → Platform.check_command p = ExecOutcome.completed p) := by
  constructor <;> intro h <;>
    simp [Platform.check_command, Platform.exit_with_code, h]

/-- Witness for C3: a child exiting with code 3 terminates the host with
code 3, and a zero exit returns the process. -/
theorem c3_witness :
    Platform.check_command ⟨3, "", ""⟩ = ExecOutcome.exited 3
      ∧ Platform.check_command ⟨0, "out", ""⟩ = ExecOutcome.completed ⟨0, "out", ""⟩ :=
  ⟨(c3_check_command_failfast ⟨3, "", ""⟩).1 (by decide),
   (c3_check_command_failfast ⟨0, "out", ""⟩).2 rfl⟩

/-- C4: with a shell the command is returned unchanged; on Windows without
a shell the head of an argument list is resolved against the search path
(falling back to the literal name) and the rest is untouched; elsewhere
without a shell a string command is split by shell-lexing rules, so that
`echo hi` yields `["echo", "hi"]`. -/
theorem c4_format_for_subprocess (name : String) (which : String → Option String)
    (command : Command) (shell : Bool) :
    (shell = true → Platform.format_for_subprocess name which command shell = .ok command)
      ∧ (∀ x rest, name = "windows" → shell = false → command = .args (x :: rest) →
          Platform.format_for_subprocess name which command shell
            = .ok (.args (((which x).getD x) :: rest)))
      ∧ (∀ s, name ≠ "windows" → shell = false → command = .str s →
          Platform.format_for_subprocess name which command shell
            = .ok (.args (shlex_split s)))
      ∧ shlex_split "echo hi" = ["echo", "hi"] := by
  refine ⟨?_, ?_, ?_, by decide⟩
  · intro h
    subst h
    by_cases hn : name = "windows" <;> simp [Platform.format_for_subprocess, hn]
  · intro x rest hn hs hc
    subst hn; subst hs; subst hc
    simp [Platform.format_for_subprocess]
  · intro s hn hs hc
    subst hs; subst hc
    simp [Platform.format_for_subprocess, hn]

/-- Witness for C4: `echo hi` without a shell on a POSIX platform splits
into the two-element argument list, and with a shell it is unchanged. -/
theorem c4_witness :
    Platform.format_for_subprocess "linux" (fun _ => none) (.str "echo hi") false
        = .ok (.args ["echo", "hi"])
      ∧ Platform.format_for_subprocess "linux" (fun _ => none) (.str "echo hi") true
        = .ok (.str "echo hi") := by
  have h := c4_format_for_subprocess "linux" (fun _ => none) (.str "echo hi") false
  have h2 := c4_format_for_subprocess "linux" (fun _ => none) (.str "echo hi") true
  constructor
  · rw [h.2.2.1 "echo hi" (by decide) rfl rfl, h.2.2.2]
  · exact h2.1 rfl

/-- C5: the forwarding facade's `abort` emits the bridge-encoded `abort`
command with the given arguments and terminates with the caller-supplied
exit code, defaulting to 1 when no `code` keyword is present. -/
theorem c5_invoked_abort (args : List PyValue) (kwargs : List (String × PyValue)) :
    (InvokedApplication.abort args kwargs).1 = format_app_command "abort" args kwargs
      ∧ (lookupKw kwargs "code" = none →
          (InvokedApplication.abort args kwargs).2 = .int 1)
      ∧ (∀ c, lookupKw kwargs "code" = some c →
          (InvokedApplication.abort args kwargs).2 = c) := by
  refine ⟨rfl, ?_, ?_⟩
  · intro h
    simp [InvokedApplication.abort, h]
  · intro c h
    simp [InvokedApplication.abort, h]

/-- Witness for C5: without a `code` keyword the exit code is 1; with
`code = 3` it is 3. -/
theorem c5_witness :
    (InvokedApplication.abort [] []).2 = PyValue.int 1
      ∧ (InvokedApplication.abort [] [("code", PyValue.int 3)]).2 = PyValue.int 3 :=
  ⟨(c5_invoked_abort [] []).2.1 rfl,
   (c5_invoked_abort [] [("code", PyValue.int 3)]).2.2 _ rfl⟩

/-- C6 counterexample: the operating-system name query may return values
such as `FreeBSD`, for which the normalized platform identity is `freebsd`,
outside the claimed three-element set. -/
theorem c6_counterexample :
    normalize_platform_name "FreeBSD" ∉ (["linux", "windows", "macos"] : List String) := by
  decide

/-- C6 amended: the platform identity lies in `{linux, windows, macos}`
whenever the operating-system query returns `Linux`, `Windows` or `Darwin`
(in general it is the lowercased name with `darwin` mapped to `macos`), and
it is computed once and cached: the first access stores the normalized
name, and every later access returns the cached string unchanged. -/
theorem c6_platform_name_amended (osName : String) :
    ((osName = "Linux" ∨ osName = "Windows" ∨ osName = "Darwin") →
        normalize_platform_name osName ∈ (["linux", "windows", "macos"] : List String))
      ∧ (Platform.name_access none osName
          = (normalize_platform_name osName, some (normalize_platform_name osName)))
      ∧ (∀ cached : String, Platform.name_access (some cached) osName = (cached, some cached)) := by
  refine ⟨?_, rfl, fun cached => rfl⟩
  rintro (h | h | h) <;> subst h <;> decide

/-- Witness for C6: a `Darwin` query normalizes into the set, and a cached
name is returned unchanged by a later access. -/
theorem c6_witness :
    normalize_platform_name "Darwin" ∈ (["linux", "windows", "macos"] : List String)
      ∧ Platform.name_access (some "macos") "Linux" = ("macos", some "macos") :=
  ⟨(c6_platform_name_amended "Darwin").1 (Or.inr (Or.inr rfl)),
   (c6_platform_name_amended "Linux").2.2 "macos"⟩

/-- C7: a debug level outside 1..3 always fails validation with the
`ValueError` message, regardless of the current verbosity, and prints
nothing. -/
theorem c7_display_debug_validation (v : Int) (m : String) (level : Int)
    (h : ¬ (1 ≤ level ∧ level ≤ 3)) :
    Application.display_debug v m level = .error Application.debugLevelError := by
  simp [Application.display_debug, h]

/-- Witness for C7 at level 0 and a high verbosity. -/
theorem c7_witness :
    Application.display_debug 5 "x" 0 = .error Application.debugLevelError :=
  c7_display_debug_validation 5 "x" 0 (by decide)

/-- C9: the popen keyword arguments gain a shell executable only on macOS,
only with a shell, and only when some environment variable carries a
dynamic-linker-override marker; the search path is then filtered to drop
System-Integrity-Protection directories except `/usr/local`, the first of
`sh`, `bash`, `zsh`, `fish` found on the filtered path is chosen, and when
none is found the keyword arguments are left without an override. -/
theorem c9_popen_kwargs_sip (kwargs : List (String × String)) (macos shell : Bool)
    (environ : List (String × String)) (defpath : String)
    (normpath : String → String) (whichIn : String → String → Option String) :
    ((macos = false ∨ shell = false ∨ Platform.hasLinkerOverrideVar environ = false) →
        Platform.populate_default_popen_kwargs kwargs macos shell environ defpath
          normpath whichIn = kwargs)
      ∧ (∀ ps, Platform.unprotected_paths normpath ps = ps.filter (fun p =>
          decide (¬ (startswith (normpath p) "/System" ∨ startswith (normpath p) "/usr"
              ∨ startswith (normpath p) "/bin" ∨ startswith (normpath p) "/sbin"
              ∨ startswith (normpath p) "/var")
            ∨ startswith (normpath p) "/usr/local")))
      ∧ ((kwargs.find? (fun kv => kv.1 == "executable")).isNone = true →
          macos = true → shell = true → Platform.hasLinkerOverrideVar environ = true →
          (∀ e, Platform.firstShellFound whichIn (String.intercalate ":"
                (Platform.unprotected_paths normpath
                  (pySplit (Platform.envGet environ "PATH" defpath) colonChar)))
                ["sh", "bash", "zsh", "fish"] = some e →
              Platform.populate_default_popen_kwargs kwargs macos shell environ defpath
                normpath whichIn = kwargs ++ [("executable", e)])
          ∧ (Platform.firstShellFound whichIn (String.intercalate ":"
                (Platform.unprotected_paths normpath
                  (pySplit (Platform.envGet environ "PATH" defpath) colonChar)))
                ["sh", "bash", "zsh", "fish"] = none →
              Platform.populate_default_popen_kwargs kwargs macos shell environ defpath
                normpath whichIn = kwargs)) := by
  refine ⟨?_, unprotected_paths_filter normpath, ?_⟩
  · intro h
    rw [Platform.populate_default_popen_kwargs]
    rcases h with h | h | h <;> rw [h] <;> simp
  · intro hexe hmac hshell henv
    subst hmac; subst hshell
    constructor
    · intro e he
      rw [Platform.populate_default_popen_kwargs, hexe, henv]
      simp only [Bool.and_true, Bool.true_and, if_true]
      rw [he]
    · intro he
      rw [Platform.populate_default_popen_kwargs, hexe, henv]
      simp only [Bool.and_true, Bool.true_and, if_true]
      rw [he]

/-- Witness for C9: on macOS with a shell, a `DYLD_` variable present and
an unprotected `PATH` entry holding `sh`, the executable is set to the
resolved shell. -/
theorem c9_witness :
    Platform.populate_default_popen_kwargs [] true true
        [("DYLD_LIBRARY_PATH", "x"), ("PATH", "/opt/bin")] "" id
        (fun exe path => if exe == "sh" && path == "/opt/bin"
          then some "/opt/bin/sh" else none)
      = [("executable", "/opt/bin/sh")] := by
  have h := c9_popen_kwargs_sip [] true true
      [("DYLD_LIBRARY_PATH", "x"), ("PATH", "/opt/bin")] "" id
      (fun exe path => if exe == "sh" && path == "/opt/bin"
        then some "/opt/bin/sh" else none)
  have hfound := (h.2.2 rfl rfl rfl (by decide)).1 "/opt/bin/sh" (by decide)
  rw [hfound]
  rfl

/-- C10: when the caller already supplied an `executable` keyword, the
keyword arguments are left completely unchanged even when every macOS SIP
condition holds. -/
theorem c10_executable_preserved (kwargs : List (String × String)) (macos shell : Bool)
    (environ : List (String × String)) (defpath : String) (normpath : String → String)
    (whichIn : String → String → Option String)
    (h : (kwargs.find? (fun kv => kv.1 == "executable")).isSome = true) :
    Platform.populate_default_popen_kwargs kwargs macos shell environ defpath
      normpath whichIn = kwargs := by
  rw [Platform.populate_default_popen_kwargs]
  have hn : (kwargs.find? (fun kv => kv.1 == "executable")).isNone = false := by
    cases hf : kwargs.find? (fun kv => kv.1 == "executable") <;> rw [hf] at h <;>
      simp_all
  rw [hn]
  simp

/-- Witness for C10: a caller-supplied executable survives the macOS SIP
path untouched. -/
theorem c10_witness :
    Platform.populate_default_popen_kwargs [("executable", "/bin/dash")] true true
        [("DYLD_LIBRARY_PATH", "1"), ("PATH", "/opt/bin")] "" id
        (fun _ _ => some "/opt/bin/sh")
      = [("executable", "/bin/dash")] :=
  c10_executable_preserved [("executable", "/bin/dash")] true true
    [("DYLD_LIBRARY_PATH", "1"), ("PATH", "/opt/bin")] "" id
    (fun _ _ => some "/opt/bin/sh") (by decide)

/-- Witness for C1 at a concrete call: the line is the tag plus hex payload
and contains no newline. -/
theorem c1_witness :
    format_app_command "display_info" [PyValue.str "a\nb"] []
        = "__HATCH__:" ++ hexOfBytes (pickleDumps "display_info" [PyValue.str "a\nb"] [])
      ∧ newlineChar ∉ (format_app_command "display_info" [PyValue.str "a\nb"] []).data :=
  ⟨(c1_encoded_line_shape "display_info" [PyValue.str "a\nb"] []).1,
   (c1_encoded_line_shape "display_info" [PyValue.str "a\nb"] []).2.2.2⟩
